import Mathlib

/-!
Verification of the kiwi key-value store (github.com/nobletooth/kiwi) against its
natural-language specification.  The Go storage engine is shallowly embedded:
byte slices become lists of naturals, machine integers become `Int`/`Nat` with
explicit wrap-around where it matters, time values become Unix-nanosecond `Int`s
passed explicitly, and fallible operations return `Except`/`Option`.
-/

namespace Kiwi

/-- Byte strings (`[]byte` in the source) are lists of naturals; each element stands
for one byte.  Values are unconstrained except where a claim needs byte bounds. -/
abbrev Bytes := List Nat

/-- Three-way lexicographic comparison of byte strings, mirroring Go `bytes.Compare`:
compare bytewise, shorter strings sort first on ties. -/
def bytesCmp : Bytes → Bytes → Ordering
  | [], [] => .eq
  | [], _ :: _ => .lt
  | _ :: _, [] => .gt
  | a :: as, b :: bs => if a < b then .lt else if b < a then .gt else bytesCmp as bs

/-- Go `lcpLen` (compression.go): length of the longest common prefix of two keys. -/
def lcpLen : Bytes → Bytes → Nat
  | a :: as, b :: bs => if a = b then lcpLen as bs + 1 else 0
  | _, _ => 0

/-- Adjacent longest-common-prefix lengths of a key list:
`lcpNext[i] = lcpLen keys[i] keys[i+1]` (compression.go). -/
def lcpNexts : List Bytes → List Nat
  | k1 :: k2 :: rest => lcpLen k1 k2 :: lcpNexts (k2 :: rest)
  | _ => []

/-- Go `slices.Min` on naturals; the source only applies it to non-empty slices, the
empty case is totalised to 0. -/
def listMin : List Nat → Nat
  | [] => 0
  | x :: xs => xs.foldl Nat.min x

/-- The largest Go `int` on 64-bit targets, `int(^uint(0) >> 1)`. -/
def maxIntGo : Int := 2 ^ 63 - 1

/-- Inner `j` loop of the dynamic program in `compressDataBlocks` (compression.go).
`j` is the candidate block end relative to the block start, `minL` the running minimum
of `lcpNext` inside the candidate block, each list element pairs `lcpNext[j-1]` with
`(dpSave[j+1], dpBlocks[j+1])`, and `best` is the best `(save, blocks, endRel)` so far.
A candidate wins on strictly larger savings, or equal savings with fewer blocks. -/
def dpInnerLoop : Nat → Int → List (Nat × Int × Int) → Int × Int × Nat → Int × Int × Nat
  | _, _, [], best => best
  | j, minL, (l, ds, db) :: rest, best =>
    let minL2 := min minL (l : Int)
    let candSave := (j : Int) * minL2 + ds
    let candBlocks := 1 + db
    let best2 :=
      if candSave > best.1 ∨ (candSave = best.1 ∧ candBlocks < best.2.1) then
        (candSave, candBlocks, j)
      else best
    dpInnerLoop (j + 1) minL2 rest best2

/-- The reverse dynamic program of `compressDataBlocks`: for every suffix of `keys`
(longest suffix first) the triple `(dpSave, dpBlocks, endRel)`, where `endRel` is the
chosen block end relative to the suffix start.  The Go code fills the arrays from the
last index backwards; each entry only depends on the entries for shorter suffixes,
which is the structural recursion used here.  The candidate `j = 0` (a singleton
block, zero savings) is folded in first, exactly like the `j == i` iteration of the
Go loop starting from `bestSave = -1, bestBlocks = maxInt`. -/
def dpList : List Bytes → List (Int × Int × Nat)
  | [] => []
  | k :: rest =>
    let tail := dpList rest
    let dpsNext : List (Int × Int) := (tail.map fun e => (e.1, e.2.1)) ++ [(0, 0)]
    let d0 := dpsNext.headD (0, 0)
    let cand0Save := (0 : Int) + d0.1
    let cand0Blocks := 1 + d0.2
    let best0 : Int × Int × Nat :=
      if cand0Save > -1 ∨ (cand0Save = -1 ∧ cand0Blocks < maxIntGo) then
        (cand0Save, cand0Blocks, 0)
      else (-1, maxIntGo, 0)
    dpInnerLoop 1 maxIntGo ((lcpNexts (k :: rest)).zip (dpsNext.drop 1)) best0 :: tail

/-- A prefix-compressed data block (`kiwipb.DataBlock`): per-key suffixes plus the
index-aligned values. -/
structure DataBlock where
  keys : List Bytes
  values : List Bytes
deriving DecidableEq, Repr

/-- Reconstruction loop of `compressDataBlocks`: cut the pair list at the block ends
chosen by the dynamic program, compute each block's shared prefix as the minimum of
the adjacent LCPs inside the block (`slices.Min(lcpNext[i:j])`, 0 for singletons) and
strip it from every key of the block.  The fuel argument only makes the recursion
structural: every block is non-empty (`i = j + 1` with `j ≥ i`), so the fuel never
runs out when it starts at the list length, as `buildBlocks` below arranges. -/
def buildBlocksFuel : Nat → List (Bytes × Bytes) → List (Bytes × DataBlock)
  | _, [] => []
  | 0, _ :: _ => []
  | fuel + 1, p :: rest =>
    let e := ((dpList ((p :: rest).map Prod.fst)).headD (0, 0, 0)).2.2
    let block := (p :: rest).take (e + 1)
    let prefLen :=
      if 0 < e then listMin ((lcpNexts ((p :: rest).map Prod.fst)).take e) else 0
    let pref := p.1.take prefLen
    (pref, ⟨block.map fun q => q.1.drop prefLen, block.map fun q => q.2⟩)
      :: buildBlocksFuel fuel ((p :: rest).drop (e + 1))

/-- The reconstruction loop of `compressDataBlocks` over the whole pair list. -/
def buildBlocks (pairs : List (Bytes × Bytes)) : List (Bytes × DataBlock) :=
  buildBlocksFuel pairs.length pairs

/-- Go `compressDataBlocks` (compression.go): split a sorted pair list into optimal
prefix-compressed blocks; returns the per-block prefixes and the blocks. -/
def compressDataBlocks (pairs : List (Bytes × Bytes)) : List Bytes × List DataBlock :=
  ((buildBlocks pairs).map Prod.fst, (buildBlocks pairs).map Prod.snd)

/-- Strict ascending byte order on a pair batch, the precondition `writeSSTable` and
`compressDataBlocks` document for their input. -/
def strictAscB : List (Bytes × Bytes) → Bool
  | [] => true
  | [_] => true
  | a :: b :: rest => (bytesCmp a.1 b.1 == Ordering.lt) && strictAscB (b :: rest)

/-- Errors surfaced by the storage layer.  `keyNotFound` is `storage.ErrKeyNotFound`;
the other constructors stand for the distinct formatted Go errors the claims rely on
(empty-key rejection, the empty-batch rejection of `writeSSTable`, short packed
values). -/
inductive LsmErr where
  | keyNotFound
  | emptyKey
  | emptyPairs
  | corruptValue
deriving DecidableEq, Repr

/-- An in-memory SSTable (sstable.go).  The header's skip index is kept structurally:
`blocks` are indexed by position, which models `block_offsets` exactly because offsets
are the cumulative framed sizes of the blocks in order and the shared block cache
returns precisely the block stored under the same `(table, id, offset)` key.  The
bloom filter comes from the external bits-and-blooms library, so it appears as an
opaque membership test (its library contract: no false negatives on the added keys). -/
structure SSTable where
  id : Int
  prevPart : Int
  prefixes : List Bytes
  firstKeys : List Bytes
  lastKey : Bytes
  blocks : List DataBlock
  bloom : Option (Bytes → Bool)

/-- Result of Go `slices.BinarySearchFunc(xs, target, bytes.Compare)` on a sorted
slice: the smallest index whose element compares ≥ target (or `xs.length`), plus
whether that element equals the target.  This is the function's documented contract;
the linear realisation below coincides with it on the sorted inputs the source uses. -/
def goBinarySearch (xs : List Bytes) (target : Bytes) : Nat × Bool :=
  let idx := xs.findIdx fun x => !(bytesCmp x target == Ordering.lt)
  match xs[idx]? with
  | some x => (idx, bytesCmp x target == Ordering.eq)
  | none => (idx, false)

/-- Go `bytes.TrimPrefix`: drop `pref` from the front of `s` when `s` starts with it,
otherwise return `s` unchanged. -/
def trimPref (s pref : Bytes) : Bytes :=
  if pref.isPrefixOf s then s.drop pref.length else s

/-- Go `SSTable.getFromDataBlocks` (sstable.go): binary-search the skip index's first
keys for the candidate block (the last block whose first key is ≤ key; not-found with
insertion index 0 means the key is below the table), fetch the block (cache and disk
reads return the stored block unchanged, so the block is read off the structure), strip
the block's prefix from the key with `bytes.TrimPrefix` and binary-search the block's
suffix keys. -/
def getFromDataBlocks (s : SSTable) (key : Bytes) : Except LsmErr Bytes :=
  let r := goBinarySearch s.firstKeys key
  if r.2 = false ∧ r.1 = 0 then .error .keyNotFound
  else
    let blockIndex := if r.2 then r.1 else r.1 - 1
    match s.blocks[blockIndex]? with
    | none => .error .keyNotFound
    | some db =>
      let keyNoPref := trimPref key (s.prefixes[blockIndex]?.getD [])
      let kr := goBinarySearch db.keys keyNoPref
      if kr.2 then
        match db.values[kr.1]? with
        | some v => .ok v
        | none => .error .keyNotFound
      else .error .keyNotFound

/-- Go `SSTable.Get` (sstable.go): reject keys outside `[firstKeys[0], lastKey]`, consult
the bloom filter when present (a negative answer is definitive), then search the data
blocks.  The `closed` flag is omitted: all claims concern open tables. -/
def sstGet (s : SSTable) (key : Bytes) : Except LsmErr Bytes :=
  if bytesCmp key (s.firstKeys.headD []) = .lt ∨ bytesCmp key s.lastKey = .gt then
    .error .keyNotFound
  else
    match s.bloom with
    | some bf => if bf key then getFromDataBlocks s key else .error .keyNotFound
    | none => getFromDataBlocks s key

/-- Go `writeSSTable` (sstable.go): refuse an empty batch, compress the pairs, and build
the header skip index — `firstKeys[i]` is `prefixes[i] ++ blocks[i].keys[0]`, the last
key is the last block's prefix plus its last suffix.  A bloom filter is attached when
the batch has at least `minKeys` pairs; the filter itself is produced by the external
bloom library and is passed in as `mkBloom`.  The temp file, framing and atomic rename
have no observable effect on the reopened table (NewSSTable reads back exactly the
header and blocks written), so writing and reopening collapse to building the table. -/
def writeSSTable (prevId nextId : Int) (pairs : List (Bytes × Bytes))
    (mkBloom : List (Bytes × Bytes) → Bytes → Bool) (minKeys : Nat) :
    Except LsmErr SSTable :=
  if pairs.isEmpty then .error .emptyPairs
  else
    let pb := compressDataBlocks pairs
    let firstKeys := (pb.1.zip pb.2).map fun x => x.1 ++ x.2.keys.headD []
    let lastKey := pb.1.getLastD [] ++ (pb.2.getLastD ⟨[], []⟩).keys.getLastD []
    let bloom := if minKeys ≤ pairs.length then some (mkBloom pairs) else none
    .ok { id := nextId, prevPart := prevId, prefixes := pb.1, firstKeys := firstKeys,
          lastKey := lastKey, blocks := pb.2, bloom := bloom }

/-- The memtable contents as a strictly ascending association list.  The skip list
behind `MemTable` behaves as an ordered map: `Get` is a key lookup, `Set` updates in
place or splices a new node keeping the order, `Iterate` yields the pairs ascending.
The list realises exactly that observable behaviour. -/
def memLookup : List (Bytes × Bytes) → Bytes → Option Bytes
  | [], _ => none
  | (k0, v0) :: rest, k => if k = k0 then some v0 else memLookup rest k

/-- Ordered insert-or-update, the effect of `SkipList.Set` on the pair sequence. -/
def memInsert : List (Bytes × Bytes) → Bytes → Bytes → List (Bytes × Bytes)
  | [], k, v => [(k, v)]
  | (k0, v0) :: rest, k, v =>
    match bytesCmp k k0 with
    | .lt => (k, v) :: (k0, v0) :: rest
    | .eq => (k0, v) :: rest
    | .gt => (k0, v0) :: memInsert rest k v

/-- Go `MemTable.heldBytes`: the counter is adjusted on every swap so that it always
equals the sum of key and value lengths over the live entries, which is the derived
form used here. -/
def memHeldBytes (mem : List (Bytes × Bytes)) : Nat :=
  (mem.map fun p => p.1.length + p.2.length).sum

/-- LSM configuration: the two memtable flush thresholds, the bloom minimum-keys
threshold, and the external bloom-filter factory (bits-and-blooms). -/
structure LSMConfig where
  flushSize : Nat
  flushSizeBytes : Nat
  bloomMinKeys : Nat
  mkBloom : List (Bytes × Bytes) → Bytes → Bool

/-- LSM tree state: the memtable plus the segment chain, newest first.  The Go code
walks `prevPart` ids through the `diskTables` map; on a flush-built chain (ids
n, n-1, …, 1) that walk visits the segments exactly in this list order. -/
structure LSMState where
  mem : List (Bytes × Bytes)
  chain : List SSTable

/-- Go `MemTable.Swap` (memtable.go): insert or update, report whether the key existed
and its previous value, and whether a flush threshold was crossed (`entries` and
`heldBytes` are the post-update counters). -/
def memSwap (cfg : LSMConfig) (mem : List (Bytes × Bytes)) (k v : Bytes) :
    Bool × Bool × Option Bytes × List (Bytes × Bytes) :=
  let prev := memLookup mem k
  let mem2 := memInsert mem k v
  let shouldFlush :=
    decide (cfg.flushSize ≤ mem2.length) || decide (cfg.flushSizeBytes ≤ memHeldBytes mem2)
  (shouldFlush, prev.isSome, prev, mem2)

/-- Go `LSMTree.lookupDiskTables` (lsm.go): walk the chain newest to oldest, moving past
a segment exactly when it reports `keyNotFound`. -/
def lookupChain : List SSTable → Bytes → Except LsmErr Bytes
  | [], _ => .error .keyNotFound
  | s :: rest, k =>
    match sstGet s k with
    | .error .keyNotFound => lookupChain rest k
    | r => r

/-- Go `LSMTree.flushMemTable` (lsm.go): an empty memtable is a no-op; otherwise write a
segment with id one past the tail (0 when there is no tail), push it as the new chain
head and reset the memtable.  The reopen-and-verify step reads back the table that was
just written and always passes in the model. -/
def flushMemTable (cfg : LSMConfig) (st : LSMState) : Except LsmErr LSMState :=
  if st.mem.isEmpty then .ok st
  else
    let prevId := match st.chain with | [] => 0 | s :: _ => s.id
    match writeSSTable prevId (prevId + 1) st.mem cfg.mkBloom cfg.bloomMinKeys with
    | .error e => .error e
    | .ok sst => .ok { mem := [], chain := sst :: st.chain }

/-- Go `LSMTree.Get` (lsm.go): reject the empty key, check the memtable, then the disk
chain. -/
def lsmGet (st : LSMState) (k : Bytes) : Except LsmErr Bytes :=
  if k = [] then .error .emptyKey
  else
    match memLookup st.mem k with
    | some v => .ok v
    | none => lookupChain st.chain k

/-- Go `LSMTree.Set` (lsm.go): reject the empty key, swap into the memtable and flush
when a threshold was crossed. -/
def lsmSet (cfg : LSMConfig) (st : LSMState) (k v : Bytes) : Except LsmErr LSMState :=
  if k = [] then .error .emptyKey
  else
    let r := memSwap cfg st.mem k v
    if r.1 then flushMemTable cfg { st with mem := r.2.2.2 }
    else .ok { st with mem := r.2.2.2 }

/-- Go `LSMTree.Swap` (lsm.go): no empty-key validation.  Swap into the memtable; when
the key was not there, look the previous value up on disk; flush if needed; finally
report the previous value, or `keyNotFound` when neither the memtable nor the chain
had one — the memtable keeps the new pair either way. -/
def lsmSwap (cfg : LSMConfig) (st : LSMState) (k v : Bytes) :
    Except LsmErr Bytes × LSMState :=
  let r := memSwap cfg st.mem k v
  let st1 : LSMState := { st with mem := r.2.2.2 }
  let found : Option Bytes :=
    if r.2.1 then some (r.2.2.1.getD [])
    else
      match lookupChain st1.chain k with
      | .ok v2 => some v2
      | .error _ => none
  match (if r.1 then flushMemTable cfg st1 else .ok st1) with
  | .error e => (.error e, st1)
  | .ok st2 =>
    match found with
    | some pv => (.ok pv, st2)
    | none => (.error .keyNotFound, st2)

/-- Go `Opts.Is` (packing.go): a bitwise flag test; TombStone = 1, Expirable = 2. -/
def optsIs (o mask : Nat) : Bool := decide (o &&& mask ≠ 0)

/-- The port layer's `unpackedValue`: flag byte, payload bytes and expiry.  Go keeps
the expiry as a `time.Time`, but only its `UnixNano` is ever serialised or compared,
so an Int of Unix nanoseconds suffices; the zero time is represented by 0 and is never
read back on non-expirable or tombstone records. -/
structure UnpackedValue where
  opt : Nat
  value : Bytes
  expiry : Int
deriving DecidableEq, Repr

/-- Big-endian byte digits of width `w` (`binary.BigEndian.PutUint64` is `natToBE 8`
applied to the two's-complement reinterpretation). -/
def natToBE : Nat → Nat → Bytes
  | 0, _ => []
  | w + 1, n => n / 256 ^ w % 256 :: natToBE w n

/-- Go `binary.BigEndian.Uint64` over byte lists. -/
def beToNat (bs : Bytes) : Nat := bs.foldl (fun acc b => acc * 256 + b) 0

/-- Reinterpret a uint64 bit pattern as a signed int64 (the Go `int64(u)` cast). -/
def toInt64 (u : Nat) : Int := if u < 2 ^ 63 then (u : Int) else (u : Int) - 2 ^ 64

/-- Reinterpret an int64 as a uint64 bit pattern (the Go `uint64(i)` cast). -/
def toUint64 (i : Int) : Nat := (i % 2 ^ 64).toNat

/-- Go `unpack` (packing.go): an empty buffer is invalid; a set tombstone bit yields the
canonical tombstone record; a set expirable bit requires at least 9 bytes and takes
the final 8 bytes as a big-endian int64 expiry and the middle as the payload;
otherwise everything after the flag byte is the payload. -/
def unpack (packed : Bytes) : Option UnpackedValue :=
  match packed with
  | [] => none
  | flags :: rest =>
    if optsIs flags 1 then some ⟨1, [], 0⟩
    else if optsIs flags 2 then
      if packed.length < 9 then none
      else
        some ⟨flags, rest.take (rest.length - 8),
              toInt64 (beToNat (rest.drop (rest.length - 8)))⟩
    else some ⟨flags, rest, 0⟩

/-- Go `unpackedValue.pack` (packing.go): size the buffer from the flags, write the flag
byte, return early for tombstones (leaving the rest of the buffer zeroed), else copy
the payload and append the 8 big-endian expiry bytes for expirable records. -/
def pack (uv : UnpackedValue) : Bytes :=
  let outputSize := 1 + uv.value.length + (if optsIs uv.opt 2 then 8 else 0)
  if optsIs uv.opt 1 then uv.opt % 256 :: List.replicate (outputSize - 1) 0
  else if optsIs uv.opt 2 then uv.opt % 256 :: (uv.value ++ natToBE 8 (toUint64 uv.expiry))
  else uv.opt % 256 :: uv.value

/-- Go `tombstonePacked` (packing.go): the packed tombstone marker. -/
def tombstonePacked : Bytes := pack ⟨1, [], 0⟩

/-- Go `unpackedValue.isExpired` at an explicit clock: `time.Now().After(expiry)` becomes
`now > expiry`; non-expirable records never expire. -/
def isExpired (uv : UnpackedValue) (now : Int) : Bool :=
  optsIs uv.opt 2 && decide (now > uv.expiry)

/-- Well-formedness of a packed byte string exactly as claim C6 states it: non-empty,
byte-valued, a tombstone record carries no payload, an expirable record carries
exactly 8 trailing expiry bytes after the value (hence at least 9 bytes in total),
and the tombstone and expirable flags are never both set. -/
def wellFormedPacked (b : Bytes) : Prop :=
  b ≠ [] ∧ (∀ x ∈ b, x < 256) ∧
  (optsIs (b.headD 0) 1 → b.length = 1) ∧
  (optsIs (b.headD 0) 2 → 9 ≤ b.length) ∧
  ¬(optsIs (b.headD 0) 1 ∧ optsIs (b.headD 0) 2)

instance (b : Bytes) : Decidable (wellFormedPacked b) := by
  unfold wellFormedPacked; infer_instance

/-- Amended well-formedness: additionally, a tombstone's flag byte is exactly the
TombStone bit.  `unpack` normalises a tombstone to the canonical record, so flag bits
beyond the tombstone bit cannot survive a round-trip. -/
def wellFormedPackedAmended (b : Bytes) : Prop :=
  wellFormedPacked b ∧ (optsIs (b.headD 0) 1 → b = [1])

instance (b : Bytes) : Decidable (wellFormedPackedAmended b) := by
  unfold wellFormedPackedAmended; infer_instance

/-- The existence constraint of a SET command (backend.go): none, NX or XX.  The Go
enum is a uint8 validated against exactly these three values; the inductive carries
only valid tags, so the validation always passes in the model. -/
inductive ExistenceCheck where
  | noCheck
  | ifNotExists
  | ifExists
deriving DecidableEq, Repr

/-- Go `SetCommand` (backend.go).  `expiryTime` is `none` for the zero `time.Time`. -/
structure SetCommand where
  key : Bytes
  value : Bytes
  expiryTime : Option Int
  existence : ExistenceCheck
  keepTtl : Bool
  get : Bool

/-- Go `SetResult` (backend.go).  `previousValue = none` models the nil slice. -/
structure SetResult where
  previousValue : Option Bytes
  hasPreviousValue : Bool
  couldSet : Bool
  err : Option LsmErr
deriving DecidableEq, Repr

/-- Observable contract of `storage.KeyValueHolder` as the backend uses it (the
LSMTree): `Get` rejects the empty key with a non-keyNotFound error, otherwise a map
lookup.  The claims about backend.go concern its logic over this contract. -/
def dbGet (db : List (Bytes × Bytes)) (k : Bytes) : Except LsmErr Bytes :=
  if k = [] then .error .emptyKey
  else
    match memLookup db k with
    | some v => .ok v
    | none => .error .keyNotFound

/-- Go `Set` of the same contract: the empty key is rejected, otherwise a map update. -/
def dbSet (db : List (Bytes × Bytes)) (k v : Bytes) : Except LsmErr (List (Bytes × Bytes)) :=
  if k = [] then .error .emptyKey else .ok (memInsert db k v)

/-- Previous-value fetch of `KiwiStorage.Set` (backend.go): only performed when an
existence check, KEEPTTL or GET asks for it; `keyNotFound` means no previous value,
any other error aborts the command. -/
def fetchPrev (db : List (Bytes × Bytes)) (cmd : SetCommand) : Except LsmErr (Option Bytes) :=
  if cmd.existence ≠ ExistenceCheck.noCheck ∨ cmd.keepTtl ∨ cmd.get then
    match dbGet db cmd.key with
    | .ok v => .ok (some v)
    | .error .keyNotFound => .ok none
    | .error e => .error e
  else .ok none

/-- Unpacking step of `KiwiStorage.Set`: keep the raw fetched bytes, unpack them, and
clear `hasPrevValue` when the record is a tombstone or expired (the raw bytes are kept
either way, exactly as the Go code leaves `prevValue` untouched). -/
def unpackPrev (prevOpt : Option Bytes) (now : Int) :
    Except LsmErr (Option Bytes × Bool × Option UnpackedValue) :=
  match prevOpt with
  | none => .ok (none, false, none)
  | some pv =>
    match unpack pv with
    | none => .error .corruptValue
    | some u =>
      if optsIs u.opt 1 || isExpired u now then .ok (some pv, false, some u)
      else .ok (some pv, true, some u)

/-- The record `KiwiStorage.Set` is going to store: KEEPTTL copies a live previous
expiry, else a non-zero command expiry makes the record expirable, else a plain
record. -/
def mkValueToSet (cmd : SetCommand) (hasPrev : Bool) (unpackedPrev : Option UnpackedValue)
    (now : Int) : UnpackedValue :=
  let keepTtlApplies :=
    cmd.keepTtl && hasPrev &&
      (match unpackedPrev with
       | some u => optsIs u.opt 2 && !(isExpired u now)
       | none => false)
  if keepTtlApplies then
    ⟨2, cmd.value, ((unpackedPrev.map fun u => u.expiry).getD 0)⟩
  else
    match cmd.expiryTime with
    | some t => ⟨2, cmd.value, t⟩
    | none => ⟨0, cmd.value, 0⟩

/-- Go `KiwiStorage.Set` (backend.go): fetch and unpack the previous value when needed,
build the record to store, decide `couldSet` from the existence constraint, write when
allowed, and only include previous-value information when GET was requested.  Note the
returned `previousValue` is the raw packed byte string fetched from the store. -/
def kiwiSet (db : List (Bytes × Bytes)) (cmd : SetCommand) (now : Int) :
    SetResult × List (Bytes × Bytes) :=
  match fetchPrev db cmd with
  | .error e =>
    ({ previousValue := none, hasPreviousValue := false, couldSet := false,
       err := some e }, db)
  | .ok prevOpt =>
    match unpackPrev prevOpt now with
    | .error e =>
      ({ previousValue := none, hasPreviousValue := false, couldSet := false,
         err := some e }, db)
    | .ok (prevValue, hasPrev, unpackedPrev) =>
      let valueToSet := mkValueToSet cmd hasPrev unpackedPrev now
      let couldSet :=
        (cmd.existence == ExistenceCheck.noCheck) ||
        (cmd.existence == ExistenceCheck.ifNotExists && !hasPrev) ||
        (cmd.existence == ExistenceCheck.ifExists && hasPrev)
      match (if couldSet then dbSet db cmd.key (pack valueToSet) else .ok db) with
      | .error e =>
        ({ previousValue := none, hasPreviousValue := false, couldSet := false,
           err := some e }, db)
      | .ok db2 =>
        if cmd.get then
          ({ previousValue := prevValue, hasPreviousValue := hasPrev,
             couldSet := couldSet, err := none }, db2)
        else
          ({ previousValue := none, hasPreviousValue := false,
             couldSet := couldSet, err := none }, db2)

/-- Liveness of a previously stored record: present, unpackable and neither a
tombstone nor expired.  This is the `hasPrevValue` the backend ends up with whenever
it fetches the previous value. -/
def livePrev (db : List (Bytes × Bytes)) (k : Bytes) (now : Int) : Bool :=
  match memLookup db k with
  | none => false
  | some pv =>
    match unpack pv with
    | none => false
    | some u => !(optsIs u.opt 1) && !(isExpired u now)

/-- The unpacked previous record, when one is stored and unpacks. -/
def prevUnpacked (db : List (Bytes × Bytes)) (k : Bytes) : Option UnpackedValue :=
  (memLookup db k).bind unpack

/-- Go `KiwiStorage.Delete` (backend.go): an unconditional swap of the packed tombstone
into the store; only the swap's error is surfaced. -/
def kiwiDelete (cfg : LSMConfig) (st : LSMState) (k : Bytes) :
    Except LsmErr Unit × LSMState :=
  let r := lsmSwap cfg st k tombstonePacked
  (r.1.map fun _ => (), r.2)

/-- A HyperClock cache entry (hcc.go `expirableClockCacheEntry`): key, value, the
CLOCK reference bit and the absolute expiry in Unix nanoseconds. -/
structure HCEntry (K V : Type) where
  key : K
  value : V
  ref : Bool
  expiresAt : Int
deriving DecidableEq, Repr

/-- HyperClock state (hcc.go).  The circular doubly-linked buffer is a list in node
order with `hand` the index of the clock hand's node (the CLOCK loop only ever
replaces node contents in place, so indices are stable there).  The `index` map is
the derived key lookup over `buf`.  The expiry buckets always hold exactly the buffer
entries keyed by `getTimeBucket expiresAt tick` — every code path inserts through
`addEntryToExpiryBucket` and removes at the same bucket — so they are modelled as
that derived index rather than a separate field. -/
structure HCState (K V : Type) where
  capacity : Nat
  buf : List (HCEntry K V)
  hand : Nat
  reaperHand : Int
  tick : Int

/-- Number of set reference bits in the buffer; each non-evicting CLOCK step clears
one, which bounds the eviction loop. -/
def countRef {K V : Type} (buf : List (HCEntry K V)) : Nat :=
  buf.countP fun e => e.ref

/-- The CLOCK eviction loop of `HyperClock.Add` (hcc.go): the hand's entry is evicted
when its reference bit is clear OR it has expired; its node is overwritten in place
with the new entry and the hand advances (wrapping).  Otherwise the reference bit is
cleared (second chance) and the hand advances.  Returns the buffer, the new hand and
a snapshot of the evicted entry as the hand saw it. -/
def clockLoop {K V : Type} (k : K) (v : V) (ttl now : Int)
    (buf : List (HCEntry K V)) (hand : Nat) :
    List (HCEntry K V) × Nat × Option (HCEntry K V) :=
  if hbuf : buf.length = 0 then (buf, hand, none)
  else
    match hget : buf[hand % buf.length]? with
    | none => (buf, hand, none)
    | some e =>
      if (!e.ref || decide (now > e.expiresAt)) = true then
        (buf.set (hand % buf.length) ⟨k, v, false, now + ttl⟩,
          (hand % buf.length + 1) % buf.length, some e)
      else
        clockLoop k v ttl now (buf.set (hand % buf.length) { e with ref := false })
          ((hand % buf.length + 1) % buf.length)
termination_by countRef buf
decreasing_by
  rename_i hcond
  simp only [countRef]
  obtain ⟨hlt, hidx⟩ := List.getElem?_eq_some.mp hget
  have href : e.ref = true := by
    cases hr : e.ref with
    | false => exact absurd (by simp [hr]) hcond
    | true => rfl
  rw [List.countP_set _ _ _ _ hlt]
  simp [hidx, href]
  exact ⟨e, hidx ▸ List.getElem_mem hlt, href⟩

/-- Go `HyperClock.Add` (hcc.go): a present key is updated in place (value, cleared
reference bit, fresh expiry); below capacity the entry is appended and the hand is
initialised on the first element; at capacity the CLOCK loop evicts a victim.
Returns the new state and a snapshot of the evicted entry, if any. -/
def hcAdd {K V : Type} [DecidableEq K] (c : HCState K V) (k : K) (v : V)
    (ttl now : Int) : HCState K V × Option (HCEntry K V) :=
  match c.buf.findIdx? (fun e => decide (e.key = k)) with
  | some i =>
    let buf2 :=
      match c.buf[i]? with
      | some e => c.buf.set i { e with value := v, ref := false, expiresAt := now + ttl }
      | none => c.buf
    ({ c with buf := buf2 }, none)
  | none =>
    if c.buf.length < c.capacity then
      let hand2 := if c.buf.length = 0 then 0 else c.hand
      ({ c with buf := c.buf ++ [⟨k, v, false, now + ttl⟩], hand := hand2 }, none)
    else
      let r := clockLoop k v ttl now c.buf c.hand
      ({ c with buf := r.1, hand := r.2.1 }, r.2.2)

/-- Go `getTimeBucket` (hcc.go): round the timestamp down to a multiple of the tick
interval.  Go's int64 division truncates toward zero, hence `Int.tdiv`. -/
def getTimeBucket (timestamp tick : Int) : Int :=
  timestamp.tdiv tick * tick

/-- Go `HyperClock.Get` (hcc.go) at an explicit clock: a miss when the key is absent or
strictly past its expiry; a hit stores true into the reference bit and returns the
value. -/
def hcGet {K V : Type} [DecidableEq K] (c : HCState K V) (k : K) (now : Int) :
    Option V × HCState K V :=
  match c.buf.findIdx? (fun e => decide (e.key = k)) with
  | none => (none, c)
  | some i =>
    match c.buf[i]? with
    | none => (none, c)
    | some e =>
      if decide (now > e.expiresAt) then (none, c)
      else (some e.value, { c with buf := c.buf.set i { e with ref := true } })

/-- One wake-up of the background reaper (hcc.go `reaper`): while the reaper hand is
in the past, clear the bucket at the hand — removing from the list and index every
entry whose expiry rounds down to that bucket — and advance the hand by one tick.
The positive-tick guard reflects the positive interval the constructor receives (the
Go loop would not terminate otherwise).  The clock-hand fix-up for removed nodes only
affects the `hand` field, which no claim observes after a reap, and is not modelled. -/
def reaperLoop {K V : Type} (tick now : Int) (buf : List (HCEntry K V)) (hand : Int) :
    List (HCEntry K V) × Int :=
  if h : hand < now ∧ 0 < tick then
    reaperLoop tick now
      (buf.filter fun e => decide (getTimeBucket e.expiresAt tick ≠ hand)) (hand + tick)
  else (buf, hand)
termination_by (now - hand).toNat
decreasing_by
  obtain ⟨h1, h2⟩ := h
  omega

/-- A reaper tick applied to the cache state. -/
def hcReaperTick {K V : Type} (c : HCState K V) (now : Int) : HCState K V :=
  let r := reaperLoop c.tick now c.buf c.reaperHand
  { c with buf := r.1, reaperHand := r.2 }

/-- Fold a list of key-value writes through `LSMTree.Set`, stopping at the first
error; this is the "sequence of successful Set operations" of claim C1. -/
def runSets (cfg : LSMConfig) (st : LSMState) :
    List (Bytes × Bytes) → Except LsmErr LSMState
  | [] => .ok st
  | (k, v) :: rest =>
    match lsmSet cfg st k v with
    | .error e => .error e
    | .ok st2 => runSets cfg st2 rest

/-- The value of the most recent write of `k` in an operation list. -/
def lastSetValue (ops : List (Bytes × Bytes)) (k : Bytes) : Option Bytes :=
  ((ops.filter fun p => decide (p.1 = k)).getLast?).map Prod.snd

/-- Configuration used by the concrete counterexample runs: an entry-count flush
threshold of 3 (the thresholds are `--memtable_flush_size` flags), the default
bloom minimum of 5 keys, and a bloom factory that never reports "definitely absent"
(irrelevant below: the written segments stay under the bloom threshold). -/
def demoCfg : LSMConfig :=
  { flushSize := 3, flushSizeBytes := 1000000, bloomMinKeys := 5,
    mkBloom := fun _ _ => true }

/-- The write sequence of the C1 counterexample: `"c" ↦ [9]` is flushed into segment
1 together with `"k1", "k2"`; then `"abc", "abd", "x"` are flushed into segment 2,
whose first block gets prefix `"ab"` and suffix keys `"c", "d"`. -/
def demoOps : List (Bytes × Bytes) :=
  [([99], [9]), ([107, 49], [1]), ([107, 50], [2]),
   ([97, 98, 99], [1]), ([97, 98, 100], [2]), ([120], [3])]

/-! Lemmas about the prefix compressor. -/

theorem foldl_min_le_init (xs : List Nat) (a : Nat) : xs.foldl Nat.min a ≤ a := by
  induction xs generalizing a with
  | nil => simp
  | cons y ys ih => exact le_trans (ih (Nat.min a y)) (Nat.min_le_left a y)

theorem foldl_min_le_mem (xs : List Nat) :
    ∀ (a : Nat) {x : Nat}, x ∈ xs → xs.foldl Nat.min a ≤ x := by
  induction xs with
  | nil => intro a x hx; cases hx
  | cons y ys ih =>
    intro a x hx
    rcases List.mem_cons.mp hx with h | h
    · subst h
      exact le_trans (foldl_min_le_init ys (Nat.min a x)) (Nat.min_le_right a x)
    · exact ih (Nat.min a y) h

/-- Go `slices.Min` is a lower bound on every member. -/
theorem listMin_le {l : List Nat} {x : Nat} (hx : x ∈ l) : listMin l ≤ x := by
  cases l with
  | nil => cases hx
  | cons y ys =>
    rcases List.mem_cons.mp hx with h | h
    · subst h; exact foldl_min_le_init ys x
    · exact foldl_min_le_mem ys y h

/-- Keys agree on any prefix no longer than their longest common prefix. -/
theorem take_eq_of_le_lcpLen {pl : Nat} :
    ∀ {a b : Bytes}, pl ≤ lcpLen a b → a.take pl = b.take pl := by
  induction pl with
  | zero => intro a b _; simp
  | succ q ih =>
    intro a b h
    match a, b with
    | [], [] => simp [lcpLen] at h
    | [], _ :: _ => simp [lcpLen] at h
    | _ :: _, [] => simp [lcpLen] at h
    | x :: as, y :: bs =>
      by_cases hxy : x = y
      · subst hxy
        simp only [lcpLen, if_pos rfl] at h
        simp [List.take_succ_cons, ih (Nat.le_of_succ_le_succ h)]
      · simp [lcpLen, hxy] at h

/-- All keys of a block whose adjacent LCPs are at least `pl` share their first `pl`
bytes with the block's first key. -/
theorem chainTake {pl : Nat} :
    ∀ (k : Bytes) (rest : List Bytes) (m : Nat),
      (∀ l ∈ (lcpNexts (k :: rest)).take m, pl ≤ l) →
      ∀ k2 ∈ (k :: rest).take (m + 1), k2.take pl = k.take pl := by
  intro k rest
  induction rest generalizing k with
  | nil =>
    intro m _ k2 hk2
    simp [List.take_succ_cons] at hk2
    simp [hk2]
  | cons k1 rest1 ih =>
    intro m hm k2 hk2
    rw [List.take_succ_cons] at hk2
    rcases List.mem_cons.mp hk2 with h | h
    · simp [h]
    · match m with
      | 0 => simp at h
      | m' + 1 =>
        have hlcps : lcpNexts (k :: k1 :: rest1) = lcpLen k k1 :: lcpNexts (k1 :: rest1) := rfl
        rw [hlcps, List.take_succ_cons] at hm
        have hhead : pl ≤ lcpLen k k1 := hm _ (List.mem_cons_self _ _)
        have htail : ∀ l ∈ (lcpNexts (k1 :: rest1)).take m', pl ≤ l :=
          fun l hl => hm l (List.mem_cons_of_mem _ hl)
        have := ih k1 m' htail k2 h
        rw [this, ← take_eq_of_le_lcpLen hhead]

/-- Reconstructing the keys and values from `buildBlocksFuel` yields the originals,
for any sufficient fuel. -/
theorem buildBlocksFuel_reconstructs :
    ∀ (n : Nat) (pairs : List (Bytes × Bytes)), pairs.length ≤ n →
      ((buildBlocksFuel n pairs).flatMap fun pb => pb.2.keys.map (pb.1 ++ ·)) =
        pairs.map Prod.fst ∧
      ((buildBlocksFuel n pairs).flatMap fun pb => pb.2.values) = pairs.map Prod.snd := by
  intro n
  induction n with
  | zero =>
    intro pairs hlen
    have : pairs = [] := List.length_eq_zero.mp (Nat.le_zero.mp hlen)
    subst this
    simp [buildBlocksFuel]
  | succ n ih =>
    intro pairs hlen
    match pairs with
    | [] => simp [buildBlocksFuel]
    | p :: rest =>
      rw [buildBlocksFuel]
      set e := ((dpList ((p :: rest).map Prod.fst)).headD (0, 0, 0)).2.2 with he
      set prefLen :=
        (if 0 < e then listMin ((lcpNexts ((p :: rest).map Prod.fst)).take e) else 0)
        with hpl
      -- every key of the chosen block shares its first `prefLen` bytes with `p.1`
      have hshare : ∀ q ∈ (p :: rest).take (e + 1), q.1.take prefLen = p.1.take prefLen := by
        intro q hq
        have hmap : q.1 ∈ ((p :: rest).map Prod.fst).take (e + 1) := by
          rw [← List.map_take]
          exact List.mem_map_of_mem Prod.fst hq
        have hbound : ∀ l ∈ (lcpNexts ((p :: rest).map Prod.fst)).take e, prefLen ≤ l := by
          intro l hl
          rw [hpl]
          by_cases h0 : 0 < e
          · simp only [if_pos h0]
            exact listMin_le hl
          · simp [if_neg h0]
        simpa using @chainTake prefLen p.1 (rest.map Prod.fst) e hbound q.1 hmap
      have hkeys : ((p :: rest).take (e + 1)).map
          ((fun x => p.1.take prefLen ++ x) ∘ fun q : Bytes × Bytes => q.1.drop prefLen) =
          ((p :: rest).take (e + 1)).map Prod.fst := by
        apply List.map_congr_left
        intro q hq
        simp only [Function.comp_apply]
        rw [← hshare q hq, List.take_append_drop]
      have hdrop : ((p :: rest).drop (e + 1)).length ≤ n := by
        have := List.length_drop (e + 1) (p :: rest)
        simp at hlen ⊢
        omega
      obtain ⟨ihk, ihv⟩ := ih ((p :: rest).drop (e + 1)) hdrop
      constructor
      · simp only [List.flatMap_cons, List.map_map]
        rw [ihk, hkeys, ← List.map_append, List.take_append_drop]
      · simp only [List.flatMap_cons]
        rw [ihv, ← List.map_append, List.take_append_drop]

/-- Specialisation of the fuel lemma to `buildBlocks`. -/
theorem buildBlocks_reconstructs (pairs : List (Bytes × Bytes)) :
    ((buildBlocks pairs).flatMap fun pb => pb.2.keys.map (pb.1 ++ ·)) =
      pairs.map Prod.fst ∧
    ((buildBlocks pairs).flatMap fun pb => pb.2.values) = pairs.map Prod.snd :=
  buildBlocksFuel_reconstructs pairs.length pairs le_rfl

/-! Lemmas for the value codec. -/

theorem beToNat_aux (bs : Bytes) :
    ∀ acc : Nat, bs.foldl (fun a b => a * 256 + b) acc =
      acc * 256 ^ bs.length + bs.foldl (fun a b => a * 256 + b) 0 := by
  induction bs with
  | nil => intro acc; simp
  | cons x xs ih =>
    intro acc
    simp only [List.foldl_cons, List.length_cons, Nat.zero_mul, Nat.zero_add]
    rw [ih (acc * 256 + x), ih x]
    ring

theorem beToNat_cons (b : Nat) (bs : Bytes) :
    beToNat (b :: bs) = b * 256 ^ bs.length + beToNat bs := by
  simp only [beToNat, List.foldl_cons]
  simpa using beToNat_aux bs b

theorem beToNat_lt (bs : Bytes) (hb : ∀ x ∈ bs, x < 256) :
    beToNat bs < 256 ^ bs.length := by
  induction bs with
  | nil => simp [beToNat]
  | cons x xs ih =>
    have hx : x < 256 := hb x (List.mem_cons_self _ _)
    have hxs := ih fun y hy => hb y (List.mem_cons_of_mem _ hy)
    rw [beToNat_cons]
    calc x * 256 ^ xs.length + beToNat xs
        < x * 256 ^ xs.length + 256 ^ xs.length := by omega
      _ = (x + 1) * 256 ^ xs.length := by ring
      _ ≤ 256 * 256 ^ xs.length := by
          exact Nat.mul_le_mul_right _ (by omega)
      _ = 256 ^ (xs.length + 1) := by ring

theorem natToBE_mul_add (w : Nat) :
    ∀ (b r : Nat), natToBE w (b * 256 ^ w + r) = natToBE w r := by
  induction w with
  | zero => intro b r; simp [natToBE]
  | succ w ih =>
    intro b r
    simp only [natToBE]
    congr 1
    · have harr : b * 256 ^ (w + 1) + r = 256 ^ w * (b * 256) + r := by ring
      rw [harr, Nat.mul_add_div (Nat.pos_pow_of_pos _ (by norm_num))]
      omega
    · have harr : b * 256 ^ (w + 1) + r = (b * 256) * 256 ^ w + r := by ring
      rw [harr, ih (b * 256) r]

theorem natToBE_beToNat (bs : Bytes) (hb : ∀ x ∈ bs, x < 256) :
    natToBE bs.length (beToNat bs) = bs := by
  induction bs with
  | nil => simp [natToBE]
  | cons x xs ih =>
    have hx : x < 256 := hb x (List.mem_cons_self _ _)
    have hr : beToNat xs < 256 ^ xs.length :=
      beToNat_lt xs fun y hy => hb y (List.mem_cons_of_mem _ hy)
    simp only [List.length_cons, natToBE, beToNat_cons]
    congr 1
    · have harr : x * 256 ^ xs.length + beToNat xs =
          256 ^ xs.length * x + beToNat xs := by ring
      rw [harr, Nat.mul_add_div (Nat.pos_pow_of_pos _ (by norm_num))]
      rw [Nat.div_eq_of_lt hr]
      omega
    · rw [natToBE_mul_add xs.length x (beToNat xs)]
      exact ih fun y hy => hb y (List.mem_cons_of_mem _ hy)

theorem toUint64_toInt64 (u : Nat) (hu : u < 2 ^ 64) : toUint64 (toInt64 u) = u := by
  simp only [toUint64, toInt64]
  split
  · rw [Int.emod_eq_of_lt (by omega) (by exact_mod_cast by omega)]
    omega
  · have h1 : ((u : Int) - 2 ^ 64) % 2 ^ 64 = (u : Int) - 2 ^ 64 + 2 ^ 64 := by
      omega
    rw [h1]
    omega

/-! Claim C5. -/

/-- C5: for every batch sorted ascending by key, concatenating `prefix[i]` with each
suffix key of block `i`, over all blocks in order, reproduces the original key
sequence, the values in the blocks equal the original values in order, empty input
yields no prefixes and no blocks, and a single pair yields one block with an empty
prefix holding the full key. -/
theorem c5_compress_reconstructs (pairs : List (Bytes × Bytes))
    (hsorted : strictAscB pairs = true) :
    (((compressDataBlocks pairs).1.zip (compressDataBlocks pairs).2).flatMap
        fun pb => pb.2.keys.map (pb.1 ++ ·)) = pairs.map Prod.fst ∧
    ((compressDataBlocks pairs).2.flatMap fun b => b.values) = pairs.map Prod.snd ∧
    compressDataBlocks ([] : List (Bytes × Bytes)) = ([], []) ∧
    (∀ p : Bytes × Bytes, compressDataBlocks [p] = ([[]], [⟨[p.1], [p.2]⟩])) := by
  obtain ⟨hk, hv⟩ := buildBlocks_reconstructs pairs
  have hzip : (compressDataBlocks pairs).1.zip (compressDataBlocks pairs).2 =
      buildBlocks pairs := by
    simp [compressDataBlocks, List.zip_map']
  have hvals : ((compressDataBlocks pairs).2.flatMap fun b => b.values) =
      (buildBlocks pairs).flatMap fun pb => pb.2.values := by
    simp [compressDataBlocks, List.flatMap_map]
  refine ⟨by rw [hzip]; exact hk, by rw [hvals]; exact hv, rfl, fun p => rfl⟩

/-- Witness for C5 at the concrete sorted batch `[(k1, v1), (k2, v2)]`. -/
theorem c5_compress_reconstructs_witness :
    strictAscB [([1], [10]), ([1, 2], [20])] = true ∧
    ((((compressDataBlocks [([1], [10]), ([1, 2], [20])]).1.zip
        (compressDataBlocks [([1], [10]), ([1, 2], [20])]).2).flatMap
          fun pb => pb.2.keys.map (pb.1 ++ ·)) =
        [([1], [10]), ([1, 2], [20])].map Prod.fst ∧
      ((compressDataBlocks [([1], [10]), ([1, 2], [20])]).2.flatMap fun b => b.values) =
        [([1], [10]), ([1, 2], [20])].map Prod.snd ∧
      compressDataBlocks ([] : List (Bytes × Bytes)) = ([], []) ∧
      (∀ p : Bytes × Bytes, compressDataBlocks [p] = ([[]], [⟨[p.1], [p.2]⟩]))) :=
  ⟨by decide, c5_compress_reconstructs [([1], [10]), ([1, 2], [20])] (by decide)⟩


/-! Claim C6. -/

/-- C6 counterexample: `[5]` is well-formed in the claim's sense — non-empty, a
tombstone record (flag bit 0 set) carrying no payload, expirable bit clear — yet
`pack (unpack [5]) = [1] ≠ [5]`: `unpack` normalises every tombstone to the canonical
record, discarding the extra flag bit. -/
theorem c6_pack_unpack_counterexample :
    wellFormedPacked [5] ∧ (unpack [5]).map pack = some [1] ∧
    some ([1] : Bytes) ≠ some ([5] : Bytes) := by
  refine ⟨by decide, by decide, by decide⟩

/-- C6 (amended): for every well-formed packed byte string whose tombstone flag byte,
when set, is exactly the TombStone bit, `pack (unpack b) = b`. -/
theorem c6_pack_unpack_roundtrip (b : Bytes) (h : wellFormedPackedAmended b) :
    (unpack b).map pack = some b := by
  obtain ⟨⟨hne, hbytes, _htomb, hexp, hboth⟩, htombeq⟩ := h
  match b with
  | [] => exact absurd rfl hne
  | flags :: rest =>
    by_cases h1 : optsIs flags 1
    · rw [htombeq h1]
      decide
    · by_cases h2 : optsIs flags 2
      · have hlen : 9 ≤ (flags :: rest).length := hexp h2
        have hflags : flags < 256 := hbytes flags (List.mem_cons_self _ _)
        have hrest : 8 ≤ rest.length := by simpa using hlen
        simp only [unpack, h1, h2, if_false, if_true, Bool.false_eq_true,
          Nat.not_lt.mpr hlen, if_neg (by omega : ¬(flags :: rest).length < 9),
          Option.map_some']
        have hdlen : (rest.drop (rest.length - 8)).length = 8 := by
          rw [List.length_drop]; omega
        have hdbytes : ∀ x ∈ rest.drop (rest.length - 8), x < 256 := fun x hx =>
          hbytes x (List.mem_cons_of_mem _ (List.mem_of_mem_drop hx))
        have hu : beToNat (rest.drop (rest.length - 8)) < 2 ^ 64 := by
          have := beToNat_lt _ hdbytes
          rw [hdlen] at this
          calc beToNat (rest.drop (rest.length - 8)) < 256 ^ 8 := this
            _ = 2 ^ 64 := by norm_num
        simp only [pack, h1, h2, if_false, if_true, Bool.false_eq_true]
        rw [toUint64_toInt64 _ hu]
        have hbe : natToBE 8 (beToNat (rest.drop (rest.length - 8))) =
            rest.drop (rest.length - 8) := by
          have := natToBE_beToNat (rest.drop (rest.length - 8)) hdbytes
          rwa [hdlen] at this
        rw [hbe, Nat.mod_eq_of_lt hflags, List.take_append_drop]
      · have hflags : flags < 256 := hbytes flags (List.mem_cons_self _ _)
        simp only [unpack, h1, h2, if_false, Bool.false_eq_true, Option.map_some']
        simp only [pack, h1, h2, if_false, Bool.false_eq_true]
        rw [Nat.mod_eq_of_lt hflags]

/-- Witness for C6 at a concrete expirable record `[2, 7, e₁ … e₈]`. -/
theorem c6_pack_unpack_roundtrip_witness :
    wellFormedPackedAmended [2, 7, 0, 0, 0, 0, 0, 0, 0, 1] ∧
    (unpack [2, 7, 0, 0, 0, 0, 0, 0, 0, 1]).map pack =
      some [2, 7, 0, 0, 0, 0, 0, 0, 0, 1] :=
  ⟨by decide, c6_pack_unpack_roundtrip _ (by decide)⟩

/-! Claims C1, C2, C3: evaluations of the embedded code at the failing inputs. -/

set_option maxRecDepth 10000

/-- C1 fails on the code: after the six successful Set operations of `demoOps`
(flush threshold 3 entries), the key `"c" = [99]` — written once as `[9]`, never
overwritten, deleted or expired — is answered with `[1]`, the value stored under
`"abc"`.  The memtable misses, the newest segment's range check passes
(`"abc" ≤ "c" ≤ "x"`, no bloom filter below 5 keys), the skip-index search picks the
block with prefix `"ab"`, and `bytes.TrimPrefix` leaves `"c"` unchanged because it
does not start with `"ab"`, so the in-block binary search hits the stored suffix
`"c"` of `"abc"`. -/
theorem c1_lsm_get_returns_stale_value :
    ((runSets demoCfg ⟨[], []⟩ demoOps).bind fun st => lsmGet st [99]) =
      .ok [1] ∧
    lastSetValue demoOps [99] = some [9] ∧ ([9] : Bytes) ≠ [1] := by
  refine ⟨rfl, rfl, by decide⟩

/-- C2 fails on the code: the segment written from the strictly ascending batch
`[("abc", [1]), ("abd", [2]), ("x", [3])]` answers the absent key `"c" = [99]` with
`.ok [1]` instead of not-found, by the same `bytes.TrimPrefix` slip as in C1.  (The
batch is below the bloom threshold, so no filter intervenes, and `"c"` lies inside
`["abc", "x"]`.) -/
theorem c2_sstable_get_wrong_hit :
    ((writeSSTable 0 1 [([97, 98, 99], [1]), ([97, 98, 100], [2]), ([120], [3])]
        (fun _ _ => true) 5).bind fun s => sstGet s [99]) = .ok [1] ∧
    ([99] : Bytes) ∉
      ([([97, 98, 99], [1]), ([97, 98, 100], [2]), ([120], [3])].map Prod.fst) := by
  refine ⟨rfl, by decide⟩

/-- C3 fails on the code: with `"k" = [107]` previously stored as the packed plain
record `[0, 7]`, a SET with the GET flag returns `previousValue = [0, 7]` — the raw
packed representation, flag byte included — while the prior unpacked value bytes are
`[7]`. -/
theorem c3_set_get_returns_packed_value :
    (kiwiSet [([107], [0, 7])]
        ⟨[107], [5], none, ExistenceCheck.noCheck, false, true⟩ 0).1.previousValue =
      some [0, 7] ∧
    (unpack [0, 7]).map (fun u => u.value) = some [7] ∧
    some ([0, 7] : Bytes) ≠ some ([7] : Bytes) := by
  refine ⟨by decide, by decide, by decide⟩

/-! Claim C4. -/

/-- C4 counterexample: on a store holding `"k" = [107]`, the first Delete succeeds,
and the second Delete — with no intervening writes — succeeds again (`.ok ()`)
instead of returning keyNotFound: the swap finds the tombstone written by the first
Delete as a regular previous value in the memtable. -/
theorem c4_second_delete_counterexample :
    (kiwiDelete demoCfg ⟨[([107], [0, 7])], []⟩ [107]).1 = .ok () ∧
    (kiwiDelete demoCfg
        (kiwiDelete demoCfg ⟨[([107], [0, 7])], []⟩ [107]).2 [107]).1 = .ok () ∧
    (Except.ok () : Except LsmErr Unit) ≠ .error .keyNotFound := by
  exact ⟨rfl, rfl, fun h => Except.noConfusion h⟩

/-- C7 counterexample: the SetCommand with the empty key and the (valid) NX tag has
no previous value stored, yet `couldSet` is `false` — the previous-value fetch hits
the LSM's empty-key rejection, which is not keyNotFound, and the command aborts. -/
theorem c7_could_set_counterexample :
    (kiwiSet [] ⟨[], [5], none, ExistenceCheck.ifNotExists, false, false⟩ 0).1.couldSet
      = false ∧
    memLookup [] [] = none := by
  refine ⟨by decide, rfl⟩

/-! LSM lemmas for claims C4 and C9. -/

theorem bytesCmp_eq_iff : ∀ (a b : Bytes), bytesCmp a b = .eq ↔ a = b := by
  intro a
  induction a with
  | nil => intro b; cases b <;> simp [bytesCmp]
  | cons x as ih =>
    intro b
    cases b with
    | nil => simp [bytesCmp]
    | cons y bs =>
      simp only [bytesCmp]
      by_cases h1 : x < y
      · simp [h1, Nat.ne_of_lt h1]
      · by_cases h2 : y < x
        · simp [h1, h2, (Nat.ne_of_lt h2).symm]
        · have hxy : x = y := Nat.le_antisymm (Nat.not_lt.mp h2) (Nat.not_lt.mp h1)
          subst hxy
          simp [h1, h2, ih bs]

theorem memLookup_memInsert_self (mem : List (Bytes × Bytes)) (k v : Bytes) :
    memLookup (memInsert mem k v) k = some v := by
  induction mem with
  | nil => simp [memInsert, memLookup]
  | cons p rest ih =>
    unfold memInsert
    cases hc : bytesCmp k p.1 with
    | lt => simp [memLookup]
    | eq =>
      have : k = p.1 := (bytesCmp_eq_iff k p.1).mp hc
      simp [memLookup, this]
    | gt =>
      have hne : k ≠ p.1 := fun he =>
        by rw [he, (bytesCmp_eq_iff p.1 p.1).mpr rfl] at hc; cases hc
      simp [memLookup, hne, ih]

theorem getFromDataBlocks_error_eq {s : SSTable} {k : Bytes} {e : LsmErr}
    (h : getFromDataBlocks s k = .error e) : e = .keyNotFound := by
  simp only [getFromDataBlocks] at h
  repeat' split at h
  all_goals
    first
      | (injection h with h2; exact h2.symm)
      | exact Except.noConfusion h

theorem sstGet_error_eq {s : SSTable} {k : Bytes} {e : LsmErr}
    (h : sstGet s k = .error e) : e = .keyNotFound := by
  simp only [sstGet] at h
  repeat' split at h
  all_goals
    first
      | (injection h with h2; exact h2.symm)
      | exact Except.noConfusion h
      | exact getFromDataBlocks_error_eq h

theorem lookupChain_error_eq :
    ∀ (chain : List SSTable) (k : Bytes) (e : LsmErr),
      lookupChain chain k = .error e → e = .keyNotFound := by
  intro chain
  induction chain with
  | nil =>
    intro k e h
    unfold lookupChain at h
    injection h with h2
    exact h2.symm
  | cons s rest ih =>
    intro k e h
    rw [lookupChain] at h
    cases hs : sstGet s k with
    | ok v =>
      rw [hs] at h
      simp at h
    | error e2 =>
      have he2 := sstGet_error_eq hs
      subst he2
      rw [hs] at h
      exact ih k e h

theorem flushMemTable_ok (cfg : LSMConfig) (st : LSMState) :
    ∃ st2, flushMemTable cfg st = .ok st2 := by
  unfold flushMemTable
  by_cases hmem : st.mem.isEmpty
  · exact ⟨st, by simp [hmem]⟩
  · simp only [hmem, Bool.false_eq_true, if_false]
    simp only [writeSSTable, hmem, Bool.false_eq_true, if_false]
    exact ⟨_, rfl⟩

/-- The flush dispatch inside `lsmSwap` always succeeds in the model (no file I/O
failures; the batch written by a flush is never empty). -/
theorem flushDispatch_ok (cfg : LSMConfig) (b : Bool) (st1 : LSMState) :
    ∃ st2, (if b then flushMemTable cfg st1 else .ok st1) = .ok st2 := by
  cases b
  · exact ⟨st1, rfl⟩
  · exact flushMemTable_ok cfg st1

theorem lsmSwap_notFound_iff (cfg : LSMConfig) (st : LSMState) (k w : Bytes) :
    (lsmSwap cfg st k w).1 = .error .keyNotFound ↔
      (memLookup st.mem k = none ∧
       lookupChain st.chain k = .error .keyNotFound) := by
  obtain ⟨st2, hst2⟩ :=
    flushDispatch_ok cfg (memSwap cfg st.mem k w).1
      { st with mem := (memSwap cfg st.mem k w).2.2.2 }
  simp only [lsmSwap]
  rw [hst2]
  cases hm : memLookup st.mem k with
  | some pv =>
    have hfound : (memSwap cfg st.mem k w).2.1 = true := by simp [memSwap, hm]
    rw [hfound]
    simp [hm]
  | none =>
    have hfound : (memSwap cfg st.mem k w).2.1 = false := by simp [memSwap, hm]
    rw [hfound]
    cases hc : lookupChain st.chain k with
    | ok v => simp [hc]
    | error e2 =>
      have he2 := lookupChain_error_eq st.chain k e2 hc
      subst he2
      simp [hc]

/-- The first projection of `lsmSwap` is `.ok` whenever the key was in the memtable
(the flush at the end always succeeds in the model). -/
theorem lsmSwap_ok_of_mem (cfg : LSMConfig) (st : LSMState) (k w pv : Bytes)
    (hmem : memLookup st.mem k = some pv) :
    (lsmSwap cfg st k w).1 = .ok pv := by
  obtain ⟨st2, hst2⟩ :=
    flushDispatch_ok cfg (memSwap cfg st.mem k w).1
      { st with mem := (memSwap cfg st.mem k w).2.2.2 }
  simp only [lsmSwap]
  rw [hst2]
  have hfound : (memSwap cfg st.mem k w).2.1 = true := by simp [memSwap, hmem]
  rw [hfound]
  simp [memSwap, hmem]

/-- When no flush threshold is crossed, `lsmSwap` leaves the chain alone and the new
memtable is the insert. -/
theorem lsmSwap_state_of_no_flush (cfg : LSMConfig) (st : LSMState) (k w : Bytes)
    (hnf : (memSwap cfg st.mem k w).1 = false) :
    (lsmSwap cfg st k w).2 = { st with mem := memInsert st.mem k w } := by
  simp only [lsmSwap]
  rw [hnf]
  simp only [Bool.false_eq_true, if_false]
  have hmem : (memSwap cfg st.mem k w).2.2.2 = memInsert st.mem k w := by
    simp [memSwap]
  cases hm : memLookup st.mem k <;>
    cases hc : lookupChain st.chain k <;>
      simp [memSwap, hm, hc, hmem]

/-! Claim C4: amended statement. -/

/-- C4 (amended): Delete returns keyNotFound exactly when the swap finds no previous
value across the memtable and the chain — but a tombstone counts as a found previous
value, so after a first Delete that found the key in the memtable (and crossed no
flush threshold), a second Delete succeeds with the tombstone as the previous value
instead of returning keyNotFound; the repeated DEL is counted as 1, not 0. -/
theorem c4_delete_notfound_characterisation (cfg : LSMConfig) (st : LSMState)
    (k pv : Bytes) (hmem : memLookup st.mem k = some pv)
    (hnf : (memSwap cfg st.mem k tombstonePacked).1 = false) :
    (kiwiDelete cfg st k).1 = .ok () ∧
    (kiwiDelete cfg (kiwiDelete cfg st k).2 k).1 = .ok () ∧
    (∀ (st2 : LSMState) (k2 w : Bytes),
      (lsmSwap cfg st2 k2 w).1 = .error .keyNotFound ↔
        (memLookup st2.mem k2 = none ∧
         lookupChain st2.chain k2 = .error .keyNotFound)) := by
  have hstate := lsmSwap_state_of_no_flush cfg st k tombstonePacked hnf
  refine ⟨?_, ?_, fun st2 k2 w => lsmSwap_notFound_iff cfg st2 k2 w⟩
  · show ((lsmSwap cfg st k tombstonePacked).1.map fun _ => ()) = .ok ()
    rw [lsmSwap_ok_of_mem cfg st k tombstonePacked pv hmem]
    rfl
  · have h2 : memLookup (lsmSwap cfg st k tombstonePacked).2.mem k =
        some tombstonePacked := by
      rw [hstate]
      exact memLookup_memInsert_self st.mem k tombstonePacked
    show ((lsmSwap cfg (lsmSwap cfg st k tombstonePacked).2 k
        tombstonePacked).1.map fun _ => ()) = .ok ()
    rw [lsmSwap_ok_of_mem cfg (lsmSwap cfg st k tombstonePacked).2 k tombstonePacked
      tombstonePacked h2]
    rfl

/-- Witness for C4 at a concrete one-key store. -/
theorem c4_delete_notfound_characterisation_witness :
    memLookup ([([107], [0, 7])] : List (Bytes × Bytes)) [107] = some [0, 7] ∧
    (memSwap demoCfg [([107], [0, 7])] [107] tombstonePacked).1 = false ∧
    ((kiwiDelete demoCfg ⟨[([107], [0, 7])], []⟩ [107]).1 = .ok () ∧
      (kiwiDelete demoCfg
          (kiwiDelete demoCfg ⟨[([107], [0, 7])], []⟩ [107]).2 [107]).1 = .ok () ∧
      (∀ (st2 : LSMState) (k2 w : Bytes),
        (lsmSwap demoCfg st2 k2 w).1 = .error .keyNotFound ↔
          (memLookup st2.mem k2 = none ∧
           lookupChain st2.chain k2 = .error .keyNotFound))) :=
  ⟨by decide, by decide,
    c4_delete_notfound_characterisation demoCfg ⟨[([107], [0, 7])], []⟩ [107] [0, 7]
      (by decide) (by decide)⟩

/-! Claim C9. -/

/-- C9: `LSMTree.Swap` performs no empty-key validation, unlike Get and Set which
reject the empty key: swapping a value under the empty key on a state that holds no
previous value for it reports keyNotFound, yet the pair is inserted into the memtable
— the state is mutated despite the not-found return. -/
theorem c9_swap_empty_key_mutates (cfg : LSMConfig) (st : LSMState) (v : Bytes)
    (hm : memLookup st.mem [] = none)
    (hc : lookupChain st.chain [] = .error .keyNotFound)
    (hnf : (memSwap cfg st.mem [] v).1 = false) :
    (lsmSwap cfg st [] v).1 = .error .keyNotFound ∧
    memLookup (lsmSwap cfg st [] v).2.mem [] = some v ∧
    (∀ (st2 : LSMState) (v2 : Bytes), lsmSet cfg st2 [] v2 = .error .emptyKey) ∧
    (∀ st2 : LSMState, lsmGet st2 [] = .error .emptyKey) := by
  refine ⟨(lsmSwap_notFound_iff cfg st [] v).mpr ⟨hm, hc⟩, ?_, ?_, ?_⟩
  · rw [lsmSwap_state_of_no_flush cfg st [] v hnf]
    exact memLookup_memInsert_self st.mem [] v
  · intro st2 v2
    simp [lsmSet]
  · intro st2
    simp [lsmGet]

/-- Witness for C9 on the fresh empty store. -/
theorem c9_swap_empty_key_mutates_witness :
    memLookup ([] : List (Bytes × Bytes)) [] = none ∧
    lookupChain ([] : List SSTable) [] = .error .keyNotFound ∧
    (memSwap demoCfg [] [] [7]).1 = false ∧
    ((lsmSwap demoCfg ⟨[], []⟩ [] [7]).1 = .error .keyNotFound ∧
      memLookup (lsmSwap demoCfg ⟨[], []⟩ [] [7]).2.mem [] = some [7] ∧
      (∀ (st2 : LSMState) (v2 : Bytes), lsmSet demoCfg st2 [] v2 = .error .emptyKey) ∧
      (∀ st2 : LSMState, lsmGet st2 [] = .error .emptyKey)) :=
  ⟨rfl, rfl, by decide,
    c9_swap_empty_key_mutates demoCfg ⟨[], []⟩ [7] rfl rfl (by decide)⟩

/-! Claim C7: amended statement. -/

/-- C7 (amended): for every SetCommand with a valid existence tag and a non-empty
key, whose previously stored bytes (if any) unpack, Set succeeds and decides
`couldSet` as: no check → always true; if_not_exists → exactly when there is no live
previous value; if_exists → exactly when there is one — a tombstone or an expired
record counting as no previous value — and the packed new value is written to the
store exactly when `couldSet` is true. -/
theorem c7_could_set_decision (db : List (Bytes × Bytes)) (cmd : SetCommand)
    (now : Int) (hkey : cmd.key ≠ [])
    (hupk : (memLookup db cmd.key).all (fun pv => (unpack pv).isSome) = true) :
    (kiwiSet db cmd now).1.err = none ∧
    (kiwiSet db cmd now).1.couldSet =
      (match cmd.existence with
       | ExistenceCheck.noCheck => true
       | ExistenceCheck.ifNotExists => !livePrev db cmd.key now
       | ExistenceCheck.ifExists => livePrev db cmd.key now) ∧
    (kiwiSet db cmd now).2 =
      (if (kiwiSet db cmd now).1.couldSet then
        memInsert db cmd.key
          (pack (mkValueToSet cmd
            ((decide (cmd.existence ≠ ExistenceCheck.noCheck) || cmd.keepTtl || cmd.get)
              && livePrev db cmd.key now)
            (if cmd.existence ≠ ExistenceCheck.noCheck ∨ cmd.keepTtl ∨ cmd.get then
              prevUnpacked db cmd.key
             else none) now))
       else db) := by
  by_cases hf : cmd.existence ≠ ExistenceCheck.noCheck ∨ cmd.keepTtl ∨ cmd.get
  · have hfB : (decide (cmd.existence ≠ ExistenceCheck.noCheck) ||
        cmd.keepTtl || cmd.get) = true := by
      rcases hf with h | h | h <;> simp [h]
    rw [if_pos hf, hfB, Bool.true_and]
    cases hm : memLookup db cmd.key with
    | none =>
      have hfetch : fetchPrev db cmd = .ok none := by
        simp [fetchPrev, dbGet, hf, hkey, hm]
      have hlive : livePrev db cmd.key now = false := by simp [livePrev, hm]
      have hprevu : prevUnpacked db cmd.key = none := by simp [prevUnpacked, hm]
      rw [hlive, hprevu]
      simp only [kiwiSet, hfetch, unpackPrev]
      cases cmd.existence <;> cases hg : cmd.get <;>
        simp [dbSet, hkey, hg, beq_iff_eq]
    | some pv =>
      have hu0 : (unpack pv).isSome := by
        rw [hm] at hupk
        simpa [Option.all] using hupk
      obtain ⟨u, hu⟩ := Option.isSome_iff_exists.mp hu0
      have hfetch : fetchPrev db cmd = .ok (some pv) := by
        simp [fetchPrev, dbGet, hf, hkey, hm]
      have hprevu : prevUnpacked db cmd.key = some u := by
        simp [prevUnpacked, hm, hu]
      have hunp : unpackPrev (some pv) now =
          .ok (some pv, (!(optsIs u.opt 1) && !(isExpired u now)), some u) := by
        by_cases ha : optsIs u.opt 1 <;> by_cases hb : isExpired u now <;>
          simp [unpackPrev, hu, ha, hb]
      have hlive : livePrev db cmd.key now =
          (!(optsIs u.opt 1) && !(isExpired u now)) := by
        by_cases ha : optsIs u.opt 1 <;> by_cases hb : isExpired u now <;>
          simp [livePrev, hm, hu, ha, hb]
      rw [hlive, hprevu]
      simp only [kiwiSet, hfetch, hunp]
      cases cmd.existence <;>
        cases hlv : (!(optsIs u.opt 1) && !(isExpired u now)) <;>
          cases hg : cmd.get <;>
            simp [dbSet, hkey, hg, hlv, beq_iff_eq]
  · have hno : cmd.existence = ExistenceCheck.noCheck := by
      by_contra hne
      exact hf (Or.inl hne)
    have hkt : cmd.keepTtl = false := by
      cases hkt : cmd.keepTtl
      · rfl
      · exact absurd (Or.inr (Or.inl hkt)) hf
    have hg : cmd.get = false := by
      cases hg : cmd.get
      · rfl
      · exact absurd (Or.inr (Or.inr hg)) hf
    have hfB : (decide (cmd.existence ≠ ExistenceCheck.noCheck) ||
        cmd.keepTtl || cmd.get) = false := by
      simp [hno, hkt, hg]
    have hfetch : fetchPrev db cmd = .ok none := by
      simp [fetchPrev, hno, hkt, hg]
    rw [if_neg hf, hfB, Bool.false_and]
    simp only [kiwiSet, hfetch, unpackPrev]
    simp [dbSet, hkey, hno, hkt, hg, mkValueToSet, beq_iff_eq]

/-- Witness for C7 on a store holding one live plain record. -/
theorem c7_could_set_decision_witness :
    (([107] : Bytes) ≠ []) ∧
    (memLookup [([107], [0, 7])] [107]).all (fun pv => (unpack pv).isSome) = true ∧
    ((kiwiSet [([107], [0, 7])]
        ⟨[107], [5], none, ExistenceCheck.ifExists, false, false⟩ 0).1.err = none ∧
      (kiwiSet [([107], [0, 7])]
          ⟨[107], [5], none, ExistenceCheck.ifExists, false, false⟩ 0).1.couldSet =
        (match ExistenceCheck.ifExists with
         | ExistenceCheck.noCheck => true
         | ExistenceCheck.ifNotExists => !livePrev [([107], [0, 7])] [107] 0
         | ExistenceCheck.ifExists => livePrev [([107], [0, 7])] [107] 0) ∧
      (kiwiSet [([107], [0, 7])]
          ⟨[107], [5], none, ExistenceCheck.ifExists, false, false⟩ 0).2 =
        (if (kiwiSet [([107], [0, 7])]
            ⟨[107], [5], none, ExistenceCheck.ifExists, false, false⟩ 0).1.couldSet then
          memInsert [([107], [0, 7])] [107]
            (pack (mkValueToSet ⟨[107], [5], none, ExistenceCheck.ifExists, false, false⟩
              ((decide ((ExistenceCheck.ifExists : ExistenceCheck) ≠
                  ExistenceCheck.noCheck) || false || false)
                && livePrev [([107], [0, 7])] [107] 0)
              (if (ExistenceCheck.ifExists : ExistenceCheck) ≠ ExistenceCheck.noCheck ∨
                  False ∨ False then
                prevUnpacked [([107], [0, 7])] [107]
               else none) 0))
         else [([107], [0, 7])])) := by
  refine ⟨by decide, by decide, ?_⟩
  have h := c7_could_set_decision [([107], [0, 7])]
    ⟨[107], [5], none, ExistenceCheck.ifExists, false, false⟩ 0 (by decide) (by decide)
  simpa using h

/-! Claim C8. -/

/-- Clearing a set reference bit strictly decreases the count of set bits. -/
theorem countRef_set_lt {K V : Type} (buf : List (HCEntry K V)) (i : Nat)
    (e : HCEntry K V) (hget : buf[i]? = some e) (href : e.ref = true) :
    countRef (buf.set i { e with ref := false }) < countRef buf := by
  obtain ⟨hlt, hidx⟩ := List.getElem?_eq_some.mp hget
  simp only [countRef]
  rw [List.countP_set _ _ _ _ hlt]
  simp [hidx, href]
  exact ⟨e, hidx ▸ List.getElem_mem hlt, href⟩

/-- The CLOCK eviction loop preserves the buffer length (the victim's node is
overwritten in place) and only ever evicts an entry whose reference bit was clear or
whose expiry had passed when the hand reached it. -/
theorem clockLoop_spec {K V : Type} (k : K) (v : V) (ttl now : Int) :
    ∀ (n : Nat) (buf : List (HCEntry K V)) (hand : Nat), countRef buf ≤ n →
      (clockLoop k v ttl now buf hand).1.length = buf.length ∧
      (∀ e, (clockLoop k v ttl now buf hand).2.2 = some e →
        e.ref = false ∨ now > e.expiresAt) := by
  intro n
  induction n with
  | zero =>
    intro buf hand hcr
    rw [clockLoop]
    split
    · simp
    · split
      · simp
      · rename_i e hget
        split
        · rename_i hcond
          refine ⟨by simp, ?_⟩
          intro e2 he2
          injection he2 with he2
          subst he2
          by_cases hr : e.ref = true
          · have hd : decide (now > e.expiresAt) = true := by simpa [hr] using hcond
            exact Or.inr (by simpa using hd)
          · exact Or.inl (by simpa using hr)
        · rename_i hcond
          exfalso
          have href : e.ref = true := by
            cases hr : e.ref
            · exact absurd (by simp [hr]) hcond
            · rfl
          have := countRef_set_lt buf _ e hget href
          omega
  | succ n ih =>
    intro buf hand hcr
    rw [clockLoop]
    split
    · simp
    · split
      · simp
      · rename_i e hget
        split
        · rename_i hcond
          refine ⟨by simp, ?_⟩
          intro e2 he2
          injection he2 with he2
          subst he2
          by_cases hr : e.ref = true
          · have hd : decide (now > e.expiresAt) = true := by simpa [hr] using hcond
            exact Or.inr (by simpa using hd)
          · exact Or.inl (by simpa using hr)
        · rename_i hcond
          have href : e.ref = true := by
            cases hr : e.ref
            · exact absurd (by simp [hr]) hcond
            · rfl
          have hlt := countRef_set_lt buf _ e hget href
          obtain ⟨ih1, ih2⟩ :=
            ih (buf.set (hand % buf.length) { e with ref := false })
              ((hand % buf.length + 1) % buf.length) (by omega)
          exact ⟨by rw [ih1, List.length_set], ih2⟩

/-- C8: for a HyperClock cache holding exactly `capacity` entries, any Add leaves the
cache holding exactly `capacity` entries, and whenever Add evicts an entry, that
entry's reference bit was false when the clock hand reached it or its expiry had
already passed. -/
theorem c8_add_at_capacity {K V : Type} [DecidableEq K] (c : HCState K V) (k : K)
    (v : V) (ttl now : Int) (hfull : c.buf.length = c.capacity)
    (hcap : 0 < c.capacity) :
    ((hcAdd c k v ttl now).1.buf.length = c.capacity) ∧
    (∀ e, (hcAdd c k v ttl now).2 = some e → e.ref = false ∨ now > e.expiresAt) := by
  unfold hcAdd
  split
  · rename_i i hidx
    constructor
    · cases hg : c.buf[i]? <;> simp [hg, List.length_set, hfull]
    · intro e he
      simp at he
  · rw [if_neg (by omega : ¬ c.buf.length < c.capacity)]
    obtain ⟨h1, h2⟩ :=
      clockLoop_spec k v ttl now (countRef c.buf) c.buf c.hand le_rfl
    refine ⟨?_, ?_⟩
    · show (clockLoop k v ttl now c.buf c.hand).1.length = c.capacity
      rw [h1, hfull]
    · intro e he
      exact h2 e he

/-- Witness for C8 on a one-entry cache at capacity 1. -/
theorem c8_add_at_capacity_witness :
    ((⟨1, [⟨0, 3, false, 10⟩], 0, 0, 1⟩ : HCState Nat Nat).buf.length =
      (⟨1, [⟨0, 3, false, 10⟩], 0, 0, 1⟩ : HCState Nat Nat).capacity) ∧
    (0 < (⟨1, [⟨0, 3, false, 10⟩], 0, 0, 1⟩ : HCState Nat Nat).capacity) ∧
    (((hcAdd (⟨1, [⟨0, 3, false, 10⟩], 0, 0, 1⟩ : HCState Nat Nat) 5 7 10 0).1.buf.length
        = (⟨1, [⟨0, 3, false, 10⟩], 0, 0, 1⟩ : HCState Nat Nat).capacity) ∧
      (∀ e, (hcAdd (⟨1, [⟨0, 3, false, 10⟩], 0, 0, 1⟩ : HCState Nat Nat) 5 7 10 0).2 =
          some e → e.ref = false ∨ (0 : Int) > e.expiresAt)) :=
  ⟨rfl, by decide,
    c8_add_at_capacity (⟨1, [⟨0, 3, false, 10⟩], 0, 0, 1⟩ : HCState Nat Nat)
      5 7 10 0 rfl (by decide)⟩

/-! Claim C10. -/

/-- The reaper only removes entries: every survivor was in the buffer. -/
theorem reaperLoop_subset {K V : Type} (tick now : Int) :
    ∀ (n : Nat) (buf : List (HCEntry K V)) (hand : Int), (now - hand).toNat ≤ n →
      ∀ e ∈ (reaperLoop tick now buf hand).1, e ∈ buf := by
  intro n
  induction n with
  | zero =>
    intro buf hand hn e he
    rw [reaperLoop] at he
    split at he
    · rename_i h
      exfalso
      omega
    · exact he
  | succ n ih =>
    intro buf hand hn e he
    rw [reaperLoop] at he
    split at he
    · rename_i h
      have := ih _ (hand + tick) (by omega) e he
      exact List.mem_of_mem_filter this
    · exact he

/-- Every entry whose expiry bucket lies at a reaper-aligned time in `[hand, now)` is
removed by the reaper pass. -/
theorem reaperLoop_removes {K V : Type} (tick now : Int) :
    ∀ (n : Nat) (buf : List (HCEntry K V)) (hand : Int), (now - hand).toNat ≤ n →
      ∀ b : Int, hand ≤ b → b < now → tick ∣ (b - hand) → 0 < tick →
      ∀ e ∈ (reaperLoop tick now buf hand).1, getTimeBucket e.expiresAt tick ≠ b := by
  intro n
  induction n with
  | zero =>
    intro buf hand hn b hb1 hb2 _ ht e _
    exfalso
    omega
  | succ n ih =>
    intro buf hand hn b hb1 hb2 hdvd ht e he
    rw [reaperLoop] at he
    rw [dif_pos ⟨lt_of_le_of_lt hb1 hb2, ht⟩] at he
    by_cases hbe : b = hand
    · subst hbe
      have hmem := reaperLoop_subset tick now n _ (b + tick) (by omega) e he
      have hfil := List.mem_filter.mp hmem
      simpa using hfil.2
    · obtain ⟨q, hq⟩ := hdvd
      have hpos : 0 < b - hand := by omega
      have hqpos : 0 < q := by nlinarith [hq, hpos, ht]
      have hq1 : 1 ≤ q := hqpos
      have htq : tick ≤ tick * q := le_mul_of_one_le_right (le_of_lt ht) hq1
      have hge : hand + tick ≤ b := by linarith [hq, htq]
      have hdvd2 : tick ∣ (b - (hand + tick)) := by
        have harr : b - (hand + tick) = (b - hand) - tick := by ring
        rw [harr]
        exact dvd_sub ⟨q, hq⟩ dvd_rfl
      exact ih _ (hand + tick) (by omega) b hge hb2 hdvd2 ht e he

/-- Go `getTimeBucket` floors a non-negative timestamp: the bucket start is at most the
timestamp and misses it by less than one tick. -/
theorem getTimeBucket_le_self {ts tick : Int} (hts : 0 ≤ ts) (ht : 0 < tick) :
    getTimeBucket ts tick ≤ ts ∧ ts - getTimeBucket ts tick < tick := by
  unfold getTimeBucket
  rw [Int.tdiv_eq_ediv hts (le_of_lt ht)]
  have h1 := Int.emod_nonneg ts (by omega : tick ≠ 0)
  have h2 := Int.emod_lt_of_pos ts ht
  have h3 := Int.emod_def ts tick
  have hcomm : ts / tick * tick = tick * (ts / tick) := mul_comm _ _
  constructor <;> linarith [h1, h2, h3, hcomm]

/-- C10: the reaper removes every entry whose expiry bucket start (the expiry floored
down to a multiple of the tick interval) lies in the past, so an entry can be removed
strictly before its expiry — the bucket start trails the expiry by less than one tick
interval, so removal happens at most one tick early — after which Get misses even at
a time `now2` before the entry's expiry. -/
theorem c10_reaper_removes_early {K V : Type} [DecidableEq K] (c : HCState K V)
    (k : K) (now now2 : Int) (htick : 0 < c.tick)
    (hbuckets : ∀ e ∈ c.buf, e.key = k →
      c.reaperHand ≤ getTimeBucket e.expiresAt c.tick ∧
      getTimeBucket e.expiresAt c.tick < now ∧
      c.tick ∣ (getTimeBucket e.expiresAt c.tick - c.reaperHand)) :
    (hcGet (hcReaperTick c now) k now2).1 = none ∧
    (∀ e ∈ c.buf, e.key = k → 0 ≤ e.expiresAt →
      getTimeBucket e.expiresAt c.tick ≤ e.expiresAt ∧ e.expiresAt - now < c.tick) := by
  constructor
  · have hnone : ∀ e ∈ (reaperLoop c.tick now c.buf c.reaperHand).1, ¬(e.key = k) := by
      intro e he hk
      have hemem := reaperLoop_subset c.tick now (now - c.reaperHand).toNat
        c.buf c.reaperHand le_rfl e he
      obtain ⟨hb1, hb2, hb3⟩ := hbuckets e hemem hk
      exact reaperLoop_removes c.tick now (now - c.reaperHand).toNat c.buf
        c.reaperHand le_rfl (getTimeBucket e.expiresAt c.tick) hb1 hb2 hb3 htick e he rfl
    have hfind : ((hcReaperTick c now).buf.findIdx? (fun e => decide (e.key = k)))
        = none := by
      rw [List.findIdx?_eq_none_iff]
      intro x hx
      simp [hnone x hx]
    simp only [hcGet, hfind]
  · intro e he hk hnn
    obtain ⟨_, hb2, _⟩ := hbuckets e he hk
    obtain ⟨hle, hlt⟩ := getTimeBucket_le_self hnn htick
    exact ⟨hle, by omega⟩

/-- Witness for C10: tick 10, one entry with key 7 expiring at 15 (bucket 10),
reaper hand at 0, reaper fires at `now = 12`; the entry is gone and Get at 12 misses
although 12 < 15. -/
theorem c10_reaper_removes_early_witness :
    (0 : Int) < (⟨1, [⟨7, 42, false, 15⟩], 0, 0, 10⟩ : HCState Nat Nat).tick ∧
    (∀ e ∈ (⟨1, [⟨7, 42, false, 15⟩], 0, 0, 10⟩ : HCState Nat Nat).buf, e.key = 7 →
      (⟨1, [⟨7, 42, false, 15⟩], 0, 0, 10⟩ : HCState Nat Nat).reaperHand ≤
        getTimeBucket e.expiresAt
          (⟨1, [⟨7, 42, false, 15⟩], 0, 0, 10⟩ : HCState Nat Nat).tick ∧
      getTimeBucket e.expiresAt
          (⟨1, [⟨7, 42, false, 15⟩], 0, 0, 10⟩ : HCState Nat Nat).tick < 12 ∧
      (⟨1, [⟨7, 42, false, 15⟩], 0, 0, 10⟩ : HCState Nat Nat).tick ∣
        (getTimeBucket e.expiresAt
            (⟨1, [⟨7, 42, false, 15⟩], 0, 0, 10⟩ : HCState Nat Nat).tick -
          (⟨1, [⟨7, 42, false, 15⟩], 0, 0, 10⟩ : HCState Nat Nat).reaperHand)) ∧
    ((hcGet (hcReaperTick (⟨1, [⟨7, 42, false, 15⟩], 0, 0, 10⟩ : HCState Nat Nat) 12)
        7 12).1 = none ∧
      (∀ e ∈ (⟨1, [⟨7, 42, false, 15⟩], 0, 0, 10⟩ : HCState Nat Nat).buf, e.key = 7 →
        0 ≤ e.expiresAt →
        getTimeBucket e.expiresAt
            (⟨1, [⟨7, 42, false, 15⟩], 0, 0, 10⟩ : HCState Nat Nat).tick ≤
          e.expiresAt ∧
        e.expiresAt - 12 < (⟨1, [⟨7, 42, false, 15⟩], 0, 0, 10⟩ : HCState Nat Nat).tick)) := by
  have hb : ∀ e ∈ (⟨1, [⟨7, 42, false, 15⟩], 0, 0, 10⟩ : HCState Nat Nat).buf,
      e.key = 7 →
      (⟨1, [⟨7, 42, false, 15⟩], 0, 0, 10⟩ : HCState Nat Nat).reaperHand ≤
        getTimeBucket e.expiresAt
          (⟨1, [⟨7, 42, false, 15⟩], 0, 0, 10⟩ : HCState Nat Nat).tick ∧
      getTimeBucket e.expiresAt
          (⟨1, [⟨7, 42, false, 15⟩], 0, 0, 10⟩ : HCState Nat Nat).tick < 12 ∧
      (⟨1, [⟨7, 42, false, 15⟩], 0, 0, 10⟩ : HCState Nat Nat).tick ∣
        (getTimeBucket e.expiresAt
            (⟨1, [⟨7, 42, false, 15⟩], 0, 0, 10⟩ : HCState Nat Nat).tick -
          (⟨1, [⟨7, 42, false, 15⟩], 0, 0, 10⟩ : HCState Nat Nat).reaperHand) := by
    intro e he hk
    simp only [List.mem_singleton] at he
    subst he
    refine ⟨by decide, by decide, ⟨1, by decide⟩⟩
  exact ⟨by decide, hb,
    c10_reaper_removes_early (⟨1, [⟨7, 42, false, 15⟩], 0, 0, 10⟩ : HCState Nat Nat)
      7 12 12 (by decide) hb⟩

end Kiwi
